import Mathlib

/-!
Verification of the PersonalSHit crossword dictionary (src/dictionary.cpp and
src/crossword.cpp), shallowly embedded in Lean.  Strings are modelled as lists
of byte values (`List Nat`, each element the value of the `uint8_t` cast of the
C++ `char`); machine arithmetic on bytes and on the 48-bit packed search keys
is carried out on `Nat` with explicit `% 256` at the points where the source
casts to `uint8_t`, and the 16-bit word identifiers carry an explicit
`% 65536` where the source narrows `size_t` to `uint16_t`.
-/

namespace Dict

/-- Modelled from the spec: `CYRILLIC_A` is declared in the missing
`dictionary.hpp`.  The source comment "Converts the dos code page to win 1251
cyrillic code page" together with the arithmetic (`c - 32` for upper-casing,
the `+64` remap of bytes in `[CYRILLIC_A-96, CYRILLIC_A-32)`) pins it to the
windows-1251 lowercase cyrillic base 0xE0 = 224, so uppercase letters occupy
`[CYRILLIC_A - 32, CYRILLIC_A) = [192, 224)`. -/
def CYRILLIC_A : Nat := 224

/-- Modelled from the spec: `LONGEST_WORD`, the size of the `_fastSearch`
array, is declared in the missing `dictionary.hpp`.  The spec fixes only that
it bounds the supported word length and exceeds the fast-path bound 6; the
concrete value below is a representative choice, and no theorem depends on it
beyond `6 < LONGEST_WORD`. -/
def LONGEST_WORD : Nat := 30

/-- Modelled from the spec: `ANY_CHAR`, the "unknown" pattern placeholder, is
declared in the missing `dictionary.hpp`.  The fast path compares the query
key `getKey(pattern)` (which packs every pattern byte) against load-time keys
whose unselected byte slots hold zero, and the spec's worked example
(`C?T` over `{CAT, CAR}` returns exactly `{CAT}`) therefore forces the
placeholder to pack as the zero byte. -/
def ANY_CHAR : Nat := 0

/-- Source `Dictionary::toupper(char)`: bytes at or above `CYRILLIC_A` are
shifted down by 32. -/
def toupperChar (c : Nat) : Nat :=
  if CYRILLIC_A ≤ c % 256 then c - 32 else c

/-- Source `Dictionary::toupper(std::string)`: upper-cases every byte. -/
def toupperStr (s : List Nat) : List Nat :=
  s.map toupperChar

/-- Source `Dictionary::isalpha`: a byte is alphabetic iff it is at or above
`CYRILLIC_A - 32`. -/
def isalpha (c : Nat) : Bool :=
  decide (CYRILLIC_A - 32 ≤ c % 256)

/-- Source `Dictionary::dosToWinCode`: bytes in
`[CYRILLIC_A - 96, CYRILLIC_A - 32)` are shifted up by 64. -/
def dosToWinCode (s : List Nat) : List Nat :=
  s.map (fun c => if CYRILLIC_A - 96 ≤ c % 256 ∧ c % 256 < CYRILLIC_A - 32 then c + 64 else c)

/-- Source `Dictionary::cleanString`: keeps only the alphabetic bytes. -/
def cleanString (s : List Nat) : List Nat :=
  s.filter isalpha

/-- The canonicalization pipeline applied to every raw entry at load time
(source `loadDictionary`, the line
`std::string clean( toupper(cleanString(nextWord)) )` applied after
`dosToWinCode`). -/
def cleanOf (raw : List Nat) : List Nat :=
  toupperStr (cleanString (dosToWinCode raw))

/-- Substitution cost used by `levenstein`: the C++ expression
`(a[i-1u] != b[j-1u])` converted to `int`. -/
def neqCost (x y : Nat) : Nat :=
  if x ≠ y then 1 else 0

/-- One inner-loop pass of the `levenstein` dynamic program: builds the cells
`dp[i][1..m]` of the current row from the previous row.  `prev` is passed
starting at column `j - 1` (its head is the diagonal cell `dp[i-1][j-1]`, the
next element the upper cell `dp[i-1][j]`), `left` is `dp[i][j-1]`. -/
def levRowAux (x : Nat) : List Nat → List Nat → Nat → List Nat
  | y :: ys, pd :: ps, left =>
    let v := min (min (ps.headD 0 + 1) (left + 1)) (pd + neqCost x y)
    v :: levRowAux x ys ps v
  | _, _, _ => []

/-- Source `Dictionary::levenstein`: the full `(|a|+1) × (|b|+1)` table filled
row by row.  Note the base case of the source,
`if (std::min(i, j) == 0) dp[i][j] = 0`: the base row and base column hold 0,
not the index value. -/
def levenstein (a b : List Nat) : Nat :=
  let row0 := List.replicate (b.length + 1) 0
  let lastRow := a.foldl (fun prev x => 0 :: levRowAux x b prev 0) row0
  lastRow.getLastD 0

/-- Modelled from the spec: the classic dynamic-programming Levenshtein
distance the spec describes (`editDistance`), namely the same table and
recurrence as `levenstein` but with base row and base column holding the index
value at each position.  Stated only to be compared against the source
function. -/
def levenshteinSpec (a b : List Nat) : Nat :=
  let row0 := List.range (b.length + 1)
  let lastRow :=
    (a.foldl (fun pi x => ((pi.2 + 1) :: levRowAux x b pi.1 (pi.2 + 1), pi.2 + 1))
      (row0, 0)).1
  lastRow.getLastD 0

end Dict

namespace Dict

theorem cleanOf_upper_alpha (s : List Nat) (h : ∀ c ∈ s, CYRILLIC_A - 32 ≤ c ∧ c < CYRILLIC_A) :
    cleanOf s = s := by
  have hmod : ∀ c ∈ s, c % 256 = c := by
    intro c hc
    exact Nat.mod_eq_of_lt (lt_of_lt_of_le (h c hc).2 (by norm_num [CYRILLIC_A]))
  have h1 : dosToWinCode s = s := by
    rw [dosToWinCode, List.map_congr_left (g := id), List.map_id]
    intro c hc
    have hcc := h c hc
    have hno : ¬(CYRILLIC_A - 96 ≤ c % 256 ∧ c % 256 < CYRILLIC_A - 32) := by
      rw [hmod c hc]
      simp only [CYRILLIC_A] at hcc ⊢
      omega
    rw [if_neg hno]
    rfl
  have h2 : cleanString s = s := by
    rw [cleanString, List.filter_eq_self]
    intro c hc
    have := h c hc
    simp only [isalpha, hmod c hc, decide_eq_true_eq]
    exact this.1
  have h3 : toupperStr s = s := by
    rw [toupperStr, List.map_congr_left (g := id), List.map_id]
    intro c hc
    have := h c hc
    simp only [toupperChar, hmod c hc, id]
    rw [if_neg (by omega)]
  rw [cleanOf, h1, h2, h3]

/-- Value of a list of base-256 digits, least significant first.  The C++
`getKey` functions build the packed 64-bit key by or-ing disjoint byte fields
`uint64_t(uint8_t(word[p])) << (8 * p)`; since the fields are disjoint and
every field value is below 256, the bitwise-or of the shifted fields is
exactly the base-256 number of the digit list. -/
def fromBytes : List Nat → Nat
  | [] => 0
  | d :: ds => d + 256 * fromBytes ds

/-- Source `Dictionary::getKey(uint32_t mask, const std::string& word)`: the
switch on `word.size()` falls through from `min(word.size(), 6)` down to 1,
packing byte `p` of the word into byte slot `p` of the key exactly when bit
`p` of the mask is set, and leaving zero in the other slots. -/
def getKeyMasked (mask : Nat) (word : List Nat) : Nat :=
  fromBytes ((List.range (min word.length 6)).map
    (fun p => if mask.testBit p then word.getD p 0 % 256 else 0))

/-- Source `Dictionary::getKey(const std::string& word)` (the query-time
variant): packs byte `p` of the word into byte slot `p` for every
`p < min(word.size(), 6)`. -/
def getKeyStr (word : List Nat) : Nat :=
  fromBytes ((List.range (min word.length 6)).map (fun p => word.getD p 0 % 256))

theorem fromBytes_inj : ∀ d1 d2 : List Nat, d1.length = d2.length →
    (∀ x ∈ d1, x < 256) → (∀ x ∈ d2, x < 256) → fromBytes d1 = fromBytes d2 → d1 = d2 := by
  intro d1
  induction d1 with
  | nil =>
    intro d2 hlen _ _ _
    exact (List.length_eq_zero.mp hlen.symm).symm
  | cons x xs ih =>
    intro d2 hlen hb1 hb2 heq
    cases d2 with
    | nil => simp at hlen
    | cons y ys =>
      simp only [fromBytes] at heq
      have hx : x < 256 := hb1 x (List.mem_cons_self _ _)
      have hy : y < 256 := hb2 y (List.mem_cons_self _ _)
      have hxy : x = y := by omega
      subst hxy
      have htail : fromBytes xs = fromBytes ys := by omega
      have := ih ys (by simpa using hlen)
        (fun z hz => hb1 z (List.mem_cons_of_mem _ hz))
        (fun z hz => hb2 z (List.mem_cons_of_mem _ hz)) htail
      rw [this]

/-- Builds a mask value from a list of selector bits, least significant
first. -/
def maskOfSel : List Bool → Nat
  | [] => 0
  | b :: bs => (if b then 1 else 0) + 2 * maskOfSel bs

theorem maskOfSel_lt : ∀ bs : List Bool, maskOfSel bs < 2 ^ bs.length := by
  intro bs
  induction bs with
  | nil => simp [maskOfSel]
  | cons b bs ih =>
    simp only [maskOfSel, List.length_cons, pow_succ]
    cases b <;> simp <;> omega

theorem testBit_maskOfSel : ∀ (bs : List Bool) (j : Nat),
    (maskOfSel bs).testBit j = bs.getD j false := by
  intro bs
  induction bs with
  | nil => intro j; simp [maskOfSel]
  | cons b bs ih =>
    intro j
    cases j with
    | zero =>
      simp only [Nat.testBit_zero, maskOfSel, List.getD_cons_zero]
      cases b <;> simp <;> omega
    | succ j =>
      have hdiv : maskOfSel (b :: bs) / 2 = maskOfSel bs := by
        simp only [maskOfSel]
        cases b <;> simp <;> omega
      rw [Nat.testBit_succ, hdiv, ih j, List.getD_cons_succ]

theorem getKeyMasked_full (w : List Nat) : getKeyMasked 63 w = getKeyStr w := by
  rw [getKeyMasked, getKeyStr]
  congr 1
  apply List.map_congr_left
  intro p hp
  have hp6 : p < 6 := lt_of_lt_of_le (List.mem_range.mp hp) (min_le_right _ _)
  have : Nat.testBit 63 p = true := by
    interval_cases p <;> rfl
  rw [this, if_pos rfl]

theorem getKeyMasked_digits_lt (mask : Nat) (w : List Nat) :
    ∀ x ∈ (List.range (min w.length 6)).map
      (fun p => if mask.testBit p then w.getD p 0 % 256 else 0), x < 256 := by
  intro x hx
  obtain ⟨p, _, rfl⟩ := List.mem_map.mp hx
  split
  · exact Nat.mod_lt _ (by norm_num)
  · norm_num

theorem getKeyStr_digits_lt (w : List Nat) :
    ∀ x ∈ (List.range (min w.length 6)).map (fun p => w.getD p 0 % 256), x < 256 := by
  intro x hx
  obtain ⟨p, _, rfl⟩ := List.mem_map.mp hx
  exact Nat.mod_lt _ (by norm_num)

theorem getKeyStr_all_any (L : Nat) : getKeyStr (List.replicate L ANY_CHAR) = 0 := by
  rw [getKeyStr]
  have : (List.range (min (List.replicate L ANY_CHAR).length 6)).map
      (fun p => (List.replicate L ANY_CHAR).getD p 0 % 256) =
      List.replicate (min L 6) 0 := by
    rw [List.length_replicate]
    apply List.ext_getElem
    · simp
    · intro i h1 h2
      simp only [List.getElem_map, List.getElem_range, List.getElem_replicate]
      rw [List.getD]
      rcases Nat.lt_or_ge i L with h | h
      · simp [List.getElem?_replicate, h, ANY_CHAR]
      · simp at h1
        omega
  rw [this]
  induction (min L 6) with
  | zero => rfl
  | succ n ih => simpa [fromBytes, List.replicate_succ] using ih

/-- State of a `Dictionary` object: the ordered word table `_allWords`, the
first-wins maps `_dirtyDict` and `_explanationDict`, the per-length fast
search tables (`_fastSearch[length][key]`, a bucket of 16-bit word
identifiers), and the query cache `_cacheSearchMap`.  The C++ fixed array
`_fastSearch[LONGEST_WORD]` is modelled as a total function on lengths;
accesses at a length `≥ LONGEST_WORD` are out of bounds in the source and are
modelled by the operations below returning `none`. -/
structure DictState where
  allWords : List (List Nat)
  dirtyDict : List Nat → Option (List Nat)
  explanationDict : List Nat → Option (List Nat)
  fastSearch : Nat → Nat → List Nat
  cacheSearchMap : List Nat → Option (List Nat)

/-- The state of a freshly constructed / `reset()` dictionary: everything
empty. -/
def emptyState : DictState :=
  ⟨[], fun _ => none, fun _ => none, fun _ _ => [], fun _ => none⟩

/-- `std::map::emplace`: inserts only when the key is absent (first entry
wins). -/
def emplace (m : List Nat → Option (List Nat)) (k v : List Nat) :
    List Nat → Option (List Nat) :=
  match m k with
  | some _ => m
  | none => fun q => if q = k then some v else m q

/-- Appends one identifier to the bucket `fastSearch length key`, leaving
every other bucket unchanged (the effect of
`currentFastSearch[key].push_back(index)`). -/
def pushBucket (fs : Nat → Nat → List Nat) (L k id0 : Nat) : Nat → Nat → List Nat :=
  fun L' k' => if L' = L ∧ k' = k then fs L' k' ++ [id0] else fs L' k'

/-- Source `Dictionary::addToFastSearch`: registers the word's (16-bit
truncated) identifier under all 64 mask keys in the table for the word's
length.  The access `_fastSearch[newWord.size()]` is out of bounds when the
word's length reaches `LONGEST_WORD`; that case is modelled as `none`. -/
def addToFastSearch (s : DictState) (newWord : List Nat) (index : Nat) :
    Option DictState :=
  if newWord.length < LONGEST_WORD then
    some { s with
      fastSearch := (List.range 64).foldl
        (fun fs mask => pushBucket fs newWord.length (getKeyMasked mask newWord)
          (index % 65536)) s.fastSearch }
  else none

/-- One iteration of the `loadDictionary` read loop: remap both fields through
`dosToWinCode`, canonicalize the word, `emplace` into both maps (first entry
wins), register the next identifier (`_allWords.size()` truncated to
`uint16_t`) in the fast search, then append the canonical word to
`_allWords`. -/
def loadEntry (s : DictState) (raw : List Nat × List Nat) : Option DictState :=
  let nextWord := dosToWinCode raw.1
  let explanation := dosToWinCode raw.2
  let clean := cleanOf raw.1
  let s1 : DictState :=
    { s with
      dirtyDict := emplace s.dirtyDict clean nextWord
      explanationDict := emplace s.explanationDict clean explanation }
  (addToFastSearch s1 clean s.allWords.length).map
    (fun s2 => { s2 with allWords := s2.allWords ++ [clean] })

/-- Source `Dictionary::loadDictionary` on the sequence of (word, explanation)
records read from the dictionary file: starts from the `reset()` state and
processes each record in order.  `none` models the undefined behaviour of
registering a word of length `≥ LONGEST_WORD`. -/
def loadDictionary (raws : List (List Nat × List Nat)) : Option DictState :=
  raws.foldlM loadEntry emptyState

/-- Source `Dictionary::getDirty`: the stored surface spelling, or the empty
string when the canonical key is absent. -/
def getDirty (s : DictState) (clean : List Nat) : List Nat :=
  (s.dirtyDict clean).getD []

/-- Source `Dictionary::getExplanation`. -/
def getExplanation (s : DictState) (clean : List Nat) : List Nat :=
  (s.explanationDict clean).getD []

/-- Source `Dictionary::getFromIndex`: resolves an identifier through
`_allWords`. -/
def getFromIndex (s : DictState) (index : Nat) : List Nat :=
  s.allWords.getD index []

/-- Source `Dictionary::isPossible`: the contender matches the pattern on
every filled position. -/
def isPossible (pattern contender : List Nat) (filledIndices : List Nat) : Bool :=
  filledIndices.all (fun i => pattern.getD i 0 = contender.getD i 0)

/-- Source `Dictionary::findPossible`.  Returns the identifier list backing
the returned `Pattern` view together with the updated state (the cache entry
inserted on a miss).  A cache miss with `pattern.size() ≥ LONGEST_WORD` reads
`_fastSearch[pattern.size()]` out of bounds in the source; the model returns
`none` in that case. -/
def findPossible (s : DictState) (pattern : List Nat) :
    Option (List Nat) × DictState :=
  match s.cacheSearchMap pattern with
  | some cached => (some cached, s)
  | none =>
    if pattern.length < LONGEST_WORD then
      let key := getKeyStr pattern
      let narrowedWords := s.fastSearch pattern.length key
      if pattern.length ≤ 6 then
        (some narrowedWords,
          { s with cacheSearchMap :=
              fun q => if q = pattern then some narrowedWords else s.cacheSearchMap q })
      else
        let filledIndices :=
          (List.range pattern.length).filter (fun i => pattern.getD i 0 ≠ ANY_CHAR)
        let possibleWordIndices :=
          narrowedWords.filter
            (fun contender => isPossible pattern (getFromIndex s contender) filledIndices)
        (some possibleWordIndices,
          { s with cacheSearchMap :=
              fun q => if q = pattern then some possibleWordIndices
                       else s.cacheSearchMap q })
    else (none, s)

/-- The effect of `Dictionary::shuffle`: `std::random_shuffle` permutes, in
place, every bucket of every length's table below `LONGEST_WORD` and every
cached result list; nothing else changes.  The randomness is abstracted into
a relation between the state before and after. -/
structure Shuffled (s t : DictState) : Prop where
  words : t.allWords = s.allWords
  dirty : t.dirtyDict = s.dirtyDict
  expl : t.explanationDict = s.explanationDict
  fastLow : ∀ L k, L < LONGEST_WORD → (t.fastSearch L k).Perm (s.fastSearch L k)
  fastHigh : ∀ L, LONGEST_WORD ≤ L → t.fastSearch L = s.fastSearch L
  cacheNone : ∀ p, s.cacheSearchMap p = none → t.cacheSearchMap p = none
  cacheSome : ∀ p l, s.cacheSearchMap p = some l →
    ∃ l', t.cacheSearchMap p = some l' ∧ l'.Perm l

theorem getKeyMasked_zero_exists (w : List Nat) : getKeyMasked 0 w = 0 := by
  rw [getKeyMasked]
  have : (List.range (min w.length 6)).map
      (fun p => if Nat.testBit 0 p then w.getD p 0 % 256 else 0) =
      List.replicate (min w.length 6) 0 := by
    apply List.ext_getElem
    · simp
    · intro i h1 h2
      simp [Nat.zero_testBit]
  rw [this]
  induction (min w.length 6) with
  | zero => rfl
  | succ n ih => simpa [fromBytes, List.replicate_succ] using ih

/-- Invariant tying the state produced by `loadDictionary` to the raw record
list it was loaded from. -/
structure LoadInv (raws : List (List Nat × List Nat)) (s : DictState) : Prop where
  words : s.allWords = raws.map (fun r => cleanOf r.1)
  dirty : ∀ c, s.dirtyDict c =
    (raws.find? (fun r => decide (cleanOf r.1 = c))).map (fun r => dosToWinCode r.1)
  expl : ∀ c, s.explanationDict c =
    (raws.find? (fun r => decide (cleanOf r.1 = c))).map (fun r => dosToWinCode r.2)
  fast : ∀ L k id0, id0 ∈ s.fastSearch L k ↔
    ∃ i, ∃ h : i < raws.length, (cleanOf (raws.get ⟨i, h⟩).1).length = L ∧
      id0 = i % 65536 ∧ ∃ m, m < 64 ∧ getKeyMasked m (cleanOf (raws.get ⟨i, h⟩).1) = k
  cache : ∀ p, s.cacheSearchMap p = none
  bound : ∀ r ∈ raws, (cleanOf r.1).length < LONGEST_WORD

theorem foldl_pushBucket (w : List Nat) (id0 : Nat) :
    ∀ (ms : List Nat) (fs : Nat → Nat → List Nat) (L0 k0 : Nat),
    (ms.foldl (fun fs mask => pushBucket fs w.length (getKeyMasked mask w) id0) fs) L0 k0
    = fs L0 k0 ++
      (ms.filter (fun m => decide (L0 = w.length ∧ k0 = getKeyMasked m w))).map
        (fun _ => id0) := by
  intro ms
  induction ms with
  | nil => intro fs L0 k0; simp
  | cons m ms ih =>
    intro fs L0 k0
    rw [List.foldl_cons, ih, List.filter_cons]
    by_cases hc : L0 = w.length ∧ k0 = getKeyMasked m w
    · rw [if_pos (by exact decide_eq_true hc), pushBucket, if_pos hc]
      simp
    · rw [if_neg (by simpa using hc), pushBucket, if_neg hc]

theorem loadEntry_inv {done : List (List Nat × List Nat)} {s : DictState}
    {r : List Nat × List Nat} {s1 : DictState}
    (inv : LoadInv done s) (h : loadEntry s r = some s1) :
    LoadInv (done ++ [r]) s1 := by
  rw [loadEntry, addToFastSearch] at h
  by_cases hlen : (cleanOf r.1).length < LONGEST_WORD
  · rw [if_pos hlen] at h
    simp only [Option.map_some', Option.some.injEq] at h
    subst h
    constructor
    · -- words
      simp [inv.words]
    · -- dirty
      intro c
      simp only [List.find?_append]
      rw [emplace]
      have hd := inv.dirty (cleanOf r.1)
      cases hfind : done.find? (fun x => decide (cleanOf x.1 = cleanOf r.1)) with
      | some v =>
        rw [hd, hfind]
        simp only [Option.map_some']
        cases hfc : done.find? (fun x => decide (cleanOf x.1 = c)) with
        | some u => simp [inv.dirty c, hfc]
        | none =>
          simp only [inv.dirty c, hfc, Option.map_none', Option.none_or]
          rw [List.find?]
          have hne : cleanOf r.1 ≠ c := by
            intro hcc
            subst hcc
            rw [hfind] at hfc
            exact Option.noConfusion hfc
          simp [hne]
      | none =>
        rw [hd, hfind]
        simp only [Option.map_none']
        by_cases hcr : c = cleanOf r.1
        · subst hcr
          rw [if_pos rfl, hfind]
          simp only [Option.map_none', Option.none_or]
          rw [List.find?]
          simp
        · rw [if_neg hcr, inv.dirty c]
          cases hfc : done.find? (fun x => decide (cleanOf x.1 = c)) with
          | some u => simp
          | none =>
            simp only [Option.map_none', Option.none_or]
            rw [List.find?]
            have : ¬(cleanOf r.1 = c) := fun hh => hcr hh.symm
            simp [this]
    · -- expl
      intro c
      simp only [List.find?_append]
      rw [emplace]
      have hd := inv.expl (cleanOf r.1)
      have hdd := inv.dirty (cleanOf r.1)
      cases hfind : done.find? (fun x => decide (cleanOf x.1 = cleanOf r.1)) with
      | some v =>
        rw [hd, hfind]
        simp only [Option.map_some']
        cases hfc : done.find? (fun x => decide (cleanOf x.1 = c)) with
        | some u => simp [inv.expl c, hfc]
        | none =>
          simp only [inv.expl c, hfc, Option.map_none', Option.none_or]
          rw [List.find?]
          have hne : cleanOf r.1 ≠ c := by
            intro hcc
            subst hcc
            rw [hfind] at hfc
            exact Option.noConfusion hfc
          simp [hne]
      | none =>
        rw [hd, hfind]
        simp only [Option.map_none']
        by_cases hcr : c = cleanOf r.1
        · subst hcr
          rw [if_pos rfl, hfind]
          simp only [Option.map_none', Option.none_or]
          rw [List.find?]
          simp
        · rw [if_neg hcr, inv.expl c]
          cases hfc : done.find? (fun x => decide (cleanOf x.1 = c)) with
          | some u => simp
          | none =>
            simp only [Option.map_none', Option.none_or]
            rw [List.find?]
            have : ¬(cleanOf r.1 = c) := fun hh => hcr hh.symm
            simp [this]
    · -- fast
      intro L k id0
      simp only
      rw [foldl_pushBucket]
      rw [List.mem_append]
      constructor
      · rintro (hold | hnew)
        · obtain ⟨i, hi, hL, hid, m, hm, hkey⟩ := (inv.fast L k id0).mp hold
          refine ⟨i, by simp; omega, ?_, hid, m, hm, ?_⟩
          · rwa [List.get_eq_getElem, List.getElem_append_left hi] at *

          · have : (done ++ [r]).get ⟨i, by simp; omega⟩ = done.get ⟨i, hi⟩ := by
              simp [List.get_eq_getElem, List.getElem_append_left hi]
            rw [this]
            exact hkey
        · obtain ⟨m, hmem, rfl⟩ := List.mem_map.mp hnew
          have hmf := List.mem_filter.mp hmem
          have hrange := List.mem_range.mp hmf.1
          have hcond := of_decide_eq_true hmf.2
          refine ⟨done.length, by simp, ?_, ?_, m, hrange, ?_⟩
          · have : (done ++ [r]).get ⟨done.length, by simp⟩ = r := by
              simp [List.get_eq_getElem, List.getElem_append_right (le_refl done.length)]
            rw [this, hcond.1]
          · rw [inv.words]
            simp
          · have : (done ++ [r]).get ⟨done.length, by simp⟩ = r := by
              simp [List.get_eq_getElem, List.getElem_append_right (le_refl done.length)]
            rw [this, hcond.2]
      · rintro ⟨i, hi, hL, hid, m, hm, hkey⟩
        simp only [List.length_append, List.length_singleton] at hi
        rcases Nat.lt_or_ge i done.length with hlt | hge
        · left
          apply (inv.fast L k id0).mpr
          have hget : (done ++ [r]).get ⟨i, by simp; omega⟩ = done.get ⟨i, hlt⟩ := by
            simp [List.get_eq_getElem, List.getElem_append_left hlt]
          exact ⟨i, hlt, by rw [hget] at hL; exact hL, hid,
            m, hm, by rw [hget] at hkey; exact hkey⟩
        · right
          have hieq : i = done.length := by omega
          subst hieq
          have hget : (done ++ [r]).get ⟨done.length, by simp⟩ = r := by
            simp [List.get_eq_getElem, List.getElem_append_right (le_refl done.length)]
          rw [hget] at hL hkey
          apply List.mem_map.mpr
          refine ⟨m, List.mem_filter.mpr ⟨List.mem_range.mpr hm, decide_eq_true ⟨hL.symm, hkey.symm⟩⟩, ?_⟩
          rw [hid, inv.words]
          simp
    · -- cache
      intro p
      exact inv.cache p
    · -- bound
      intro r' hr'
      rcases List.mem_append.mp hr' with hm | hm
      · exact inv.bound r' hm
      · rw [List.mem_singleton.mp hm]
        exact hlen
  · rw [if_neg hlen] at h
    exact Option.noConfusion h

theorem load_go : ∀ (pending done : List (List Nat × List Nat)) (s s' : DictState),
    LoadInv done s → pending.foldlM loadEntry s = some s' →
    LoadInv (done ++ pending) s' := by
  intro pending
  induction pending with
  | nil =>
    intro done s s' inv h
    simp only [List.foldlM_nil] at h
    cases h
    simpa using inv
  | cons r pending ih =>
    intro done s s' inv h
    rw [List.foldlM_cons] at h
    obtain ⟨s1, h1, h2⟩ := Option.bind_eq_some.mp h
    have := ih (done ++ [r]) s1 s' (loadEntry_inv inv h1) h2
    simpa using this

theorem loadDictionary_inv {raws : List (List Nat × List Nat)} {s : DictState}
    (h : loadDictionary raws = some s) : LoadInv raws s := by
  have base : LoadInv [] emptyState := by
    constructor
    · rfl
    · intro c; rfl
    · intro c; rfl
    · intro L k id0
      constructor
      · intro hmem; exact absurd hmem (List.not_mem_nil _)
      · rintro ⟨i, hi, _⟩
        exact absurd hi (Nat.not_lt_zero i)
    · intro p; rfl
    · intro r hr; exact absurd hr (List.not_mem_nil _)
  simpa using load_go raws [] emptyState s base h

theorem findPossible_short (s : DictState) (p : List Nat)
    (hcache : s.cacheSearchMap p = none) (h6 : p.length ≤ 6)
    (hlw : p.length < LONGEST_WORD) :
    (findPossible s p).1 = some (s.fastSearch p.length (getKeyStr p)) := by
  simp only [findPossible, hcache, if_pos hlw, if_pos h6]

theorem findPossible_long (s : DictState) (p : List Nat)
    (hcache : s.cacheSearchMap p = none) (h6 : 6 < p.length)
    (hlw : p.length < LONGEST_WORD) :
    (findPossible s p).1 = some ((s.fastSearch p.length (getKeyStr p)).filter
      (fun contender => isPossible p (getFromIndex s contender)
        ((List.range p.length).filter (fun i => p.getD i 0 ≠ ANY_CHAR)))) := by
  simp only [findPossible, hcache, if_pos hlw, if_neg (not_le.mpr h6)]

theorem mem_bucket_loaded {raws : List (List Nat × List Nat)} {s : DictState}
    (inv : LoadInv raws s) (hcap : raws.length ≤ 65536) (L k id0 : Nat) :
    id0 ∈ s.fastSearch L k ↔
      ∃ w, s.allWords.get? id0 = some w ∧ w.length = L ∧
        ∃ m, m < 64 ∧ getKeyMasked m w = k := by
  rw [inv.fast]
  constructor
  · rintro ⟨i, hi, hL, hid, m, hm, hk⟩
    have hmod : i % 65536 = i := Nat.mod_eq_of_lt (lt_of_lt_of_le hi hcap)
    subst hid
    rw [hmod]
    refine ⟨cleanOf (raws.get ⟨i, hi⟩).1, ?_, hL, m, hm, hk⟩
    rw [inv.words, List.get?_eq_getElem?, List.getElem?_map,
      List.getElem?_eq_getElem hi]
    rfl
  · rintro ⟨w, hw, hL, m, hm, hk⟩
    rw [List.get?_eq_getElem?] at hw
    have hid : id0 < s.allWords.length := by
      by_contra hcon
      rw [List.getElem?_eq_none (le_of_not_lt hcon)] at hw
      exact Option.noConfusion hw
    have hweq : s.allWords.get ⟨id0, hid⟩ = w := by
      rw [List.getElem?_eq_getElem hid] at hw
      rw [List.get_eq_getElem]
      exact Option.some.inj hw
    have hidr : id0 < raws.length := by
      rw [inv.words] at hid
      simpa using hid
    refine ⟨id0, hidr, ?_, (Nat.mod_eq_of_lt (lt_of_lt_of_le hidr hcap)).symm, m, hm, ?_⟩
    · have : cleanOf (raws.get ⟨id0, hidr⟩).1 = w := by
        rw [← hweq]
        rw [List.get_eq_getElem, List.get_eq_getElem]
        simp [inv.words]
      rw [this, hL]
    · have : cleanOf (raws.get ⟨id0, hidr⟩).1 = w := by
        rw [← hweq]
        rw [List.get_eq_getElem, List.get_eq_getElem]
        simp [inv.words]
      rw [this]
      exact hk

theorem getFromIndex_eq {s : DictState} {i : Nat} (h : i < s.allWords.length) :
    getFromIndex s i = s.allWords.get ⟨i, h⟩ := by
  rw [getFromIndex, List.getD_eq_getElem?_getD, List.getElem?_eq_getElem h,
    List.get_eq_getElem]
  rfl

theorem isPossible_self (w : List Nat) (filled : List Nat) :
    isPossible w w filled = true := by
  simp [isPossible]

/-- C1: for every loaded dictionary word `w` (all of which have length below
`LONGEST_WORD`, since loading a longer word is out of bounds and modelled as
load failure), querying `findPossible` with the pattern equal to `w` itself
returns a result containing `w`'s word identifier.  The capacity hypothesis
`raws.length ≤ 65536` is the spec's documented 16-bit identifier bound. -/
theorem claim_C1 (raws : List (List Nat × List Nat)) (s : DictState)
    (h : loadDictionary raws = some s) (hcap : raws.length ≤ 65536)
    (i : Nat) (w : List Nat) (hw : s.allWords.get? i = some w) :
    i ∈ ((findPossible s w).1.getD []) := by
  have inv := loadDictionary_inv h
  rw [List.get?_eq_getElem?] at hw
  have hid : i < s.allWords.length := by
    by_contra hcon
    rw [List.getElem?_eq_none (le_of_not_lt hcon)] at hw
    exact Option.noConfusion hw
  have hweq : s.allWords.get ⟨i, hid⟩ = w := by
    rw [List.getElem?_eq_getElem hid] at hw
    rw [List.get_eq_getElem]
    exact Option.some.inj hw
  have hidr : i < raws.length := by
    rw [inv.words] at hid
    simpa using hid
  have hwclean : cleanOf (raws.get ⟨i, hidr⟩).1 = w := by
    rw [← hweq]
    rw [List.get_eq_getElem, List.get_eq_getElem]
    simp [inv.words]
  have hlenw : w.length < LONGEST_WORD := by
    rw [← hwclean]
    exact inv.bound _ (List.get_mem raws _ _)
  have hmem : i ∈ s.fastSearch w.length (getKeyStr w) := by
    apply (inv.fast _ _ _).mpr
    exact ⟨i, hidr, by rw [hwclean], (Nat.mod_eq_of_lt (lt_of_lt_of_le hidr hcap)).symm,
      63, by norm_num, by rw [hwclean]; exact getKeyMasked_full w⟩
  rcases le_or_lt w.length 6 with h6 | h6
  · rw [findPossible_short s w (inv.cache w) h6 hlenw]
    simpa using hmem
  · rw [findPossible_long s w (inv.cache w) h6 hlenw]
    simp only [Option.getD_some]
    apply List.mem_filter.mpr
    refine ⟨hmem, ?_⟩
    rw [getFromIndex_eq hid, hweq]
    exact isPossible_self _ _

def c1raws : List (List Nat × List Nat) := [([192, 193], [200])]

def c1state : DictState := (loadDictionary c1raws).getD emptyState

theorem claim_C1_witness : 0 ∈ ((findPossible c1state [192, 193]).1.getD []) :=
  claim_C1 c1raws c1state rfl (by norm_num [c1raws]) 0 [192, 193] rfl

theorem getD_replicate_any (L i : Nat) :
    (List.replicate L ANY_CHAR).getD i 0 = ANY_CHAR := by
  rw [List.getD_eq_getElem?_getD]
  rcases Nat.lt_or_ge i L with hi | hi
  · rw [List.getElem?_eq_getElem (by simpa using hi)]
    simp
  · rw [List.getElem?_eq_none (by simpa using hi)]
    rfl

/-- C2: on a loaded dictionary, a query whose pattern is entirely unknown
placeholders returns, as a set of identifiers, exactly the loaded words of
that exact length.  The final conjunct settles the list-versus-set question
raised by the claim: a length-2 word is registered under all 64 masks, of
which `2^(6-2) = 16` give the all-unknown key, so its identifier occurs 16
times in the returned list. -/
theorem claim_C2 (raws : List (List Nat × List Nat)) (s : DictState)
    (h : loadDictionary raws = some s) (hcap : raws.length ≤ 65536)
    (L : Nat) (hL : L < LONGEST_WORD) :
    ((findPossible s (List.replicate L ANY_CHAR)).1).isSome = true ∧
    (∀ id0, id0 ∈ ((findPossible s (List.replicate L ANY_CHAR)).1.getD []) ↔
      ∃ w, s.allWords.get? id0 = some w ∧ w.length = L) ∧
    (loadDictionary [([192, 193], [200])]).map
        (fun s2 => (findPossible s2 [ANY_CHAR, ANY_CHAR]).1) =
      some (some (List.replicate 16 0)) := by
  have inv := loadDictionary_inv h
  have hplen : (List.replicate L ANY_CHAR).length = L := List.length_replicate L ANY_CHAR
  have hkey : getKeyStr (List.replicate L ANY_CHAR) = 0 := getKeyStr_all_any L
  have hres : (findPossible s (List.replicate L ANY_CHAR)).1 = some (s.fastSearch L 0) := by
    rcases le_or_lt L 6 with h6 | h6
    · rw [findPossible_short s _ (inv.cache _) (by rw [hplen]; exact h6) (by rwa [hplen])]
      rw [hplen, hkey]
    · rw [findPossible_long s _ (inv.cache _) (by rw [hplen]; exact h6) (by rwa [hplen])]
      rw [hplen, hkey]
      congr 1
      have hfilled : (List.range L).filter
          (fun i => (List.replicate L ANY_CHAR).getD i 0 ≠ ANY_CHAR) = [] := by
        rw [List.filter_eq_nil_iff]
        intro a _
        rw [getD_replicate_any]
        simp
      rw [hfilled]
      apply List.filter_eq_self.mpr
      intro a _
      rfl
  refine ⟨by rw [hres]; rfl, ?_, by decide⟩
  intro id0
  rw [hres]
  simp only [Option.getD_some]
  rw [mem_bucket_loaded inv hcap]
  constructor
  · rintro ⟨w, hw, hlen, _⟩
    exact ⟨w, hw, hlen⟩
  · rintro ⟨w, hw, hlen⟩
    exact ⟨w, hw, hlen, 0, by norm_num, getKeyMasked_zero_exists w⟩

theorem claim_C2_witness :
    ((findPossible c1state (List.replicate 2 ANY_CHAR)).1).isSome = true ∧
    (0 ∈ ((findPossible c1state (List.replicate 2 ANY_CHAR)).1.getD []) ↔
      ∃ w, c1state.allWords.get? 0 = some w ∧ w.length = 2) :=
  ⟨(claim_C2 c1raws c1state rfl (by norm_num [c1raws]) 2 (by norm_num [LONGEST_WORD])).1,
   (claim_C2 c1raws c1state rfl (by norm_num [c1raws]) 2 (by norm_num [LONGEST_WORD])).2.1 0⟩

theorem key_digits_eq {m : Nat} {w q : List Nat} (hlw : w.length = q.length)
    (hk : getKeyMasked m w = getKeyStr q) (j : Nat) (hj : j < min q.length 6) :
    (if m.testBit j then w.getD j 0 % 256 else 0) = q.getD j 0 % 256 := by
  have hlists := fromBytes_inj _ _ (by simp [hlw])
    (getKeyMasked_digits_lt m w) (getKeyStr_digits_lt q) hk
  have hj1 : j < min w.length 6 := by omega
  have := congrArg (fun l => l[j]?) hlists
  simp only [List.getElem?_map] at this
  rw [List.getElem?_range hj1, List.getElem?_range hj] at this
  simpa using this

/-- C3: monotonicity of matching for the fast path.  On a loaded dictionary,
replacing one unknown position of a pattern of length at most 6 by a concrete
letter can only shrink the set of identifiers returned by `findPossible`. -/
theorem claim_C3 (raws : List (List Nat × List Nat)) (s : DictState)
    (h : loadDictionary raws = some s)
    (p : List Nat) (t c : Nat) (hlen6 : p.length ≤ 6) (ht : t < p.length)
    (hpt : p.getD t 0 = ANY_CHAR) (hc1 : CYRILLIC_A - 32 ≤ c) (hc2 : c < 256) :
    ∀ id0, id0 ∈ ((findPossible s (p.set t c)).1.getD []) →
      id0 ∈ ((findPossible s p).1.getD []) := by
  have inv := loadDictionary_inv h
  have hLW : (6 : Nat) < LONGEST_WORD := by norm_num [LONGEST_WORD]
  have hsetlen : (p.set t c).length = p.length := List.length_set p t c
  have hres' : (findPossible s (p.set t c)).1 =
      some (s.fastSearch p.length (getKeyStr (p.set t c))) := by
    rw [findPossible_short s (p.set t c) (inv.cache (p.set t c))
      (by rw [hsetlen]; exact hlen6) (by rw [hsetlen]; omega), hsetlen]
  have hres : (findPossible s p).1 = some (s.fastSearch p.length (getKeyStr p)) :=
    findPossible_short s p (inv.cache p) hlen6 (by omega)
  intro id0 hmem
  rw [hres', Option.getD_some] at hmem
  rw [hres, Option.getD_some]
  obtain ⟨i, hi, hL, hid, m', hm', hkey⟩ := (inv.fast _ _ id0).mp hmem
  set w := cleanOf (raws.get ⟨i, hi⟩).1 with hw
  have hwlen : w.length = p.length := hL
  have hqlen : w.length = (p.set t c).length := hL.trans hsetlen.symm
  have hmin : min (p.set t c).length 6 = p.length := by
    rw [hsetlen]; omega
  have hct : (p.set t c).getD t 0 = c := by
    rw [List.getD_eq_getElem?_getD, List.getElem?_set, if_pos rfl, if_pos ht]
    rfl
  have hdig := key_digits_eq hqlen hkey
  have hdigt := hdig t (by omega)
  rw [hct] at hdigt
  have hcmod : c % 256 = c := Nat.mod_eq_of_lt hc2
  have hcpos : c ≠ 0 := by
    intro hc0
    rw [hc0] at hc1
    norm_num [CYRILLIC_A] at hc1
  have hbit_t : m'.testBit t = true := by
    by_contra hb
    rw [Bool.not_eq_true] at hb
    rw [hb] at hdigt
    simp only [Bool.false_eq_true, if_false] at hdigt
    rw [hcmod] at hdigt
    exact hcpos hdigt.symm
  have hwt : w.getD t 0 % 256 = c := by
    rw [hbit_t] at hdigt
    simpa [hcmod] using hdigt
  -- the new mask: clear bit t of the old mask
  set mnew := maskOfSel ((List.range 6).map (fun j => m'.testBit j && decide (j ≠ t)))
    with hmnew
  have hmnew_lt : mnew < 64 := by
    have h1 := maskOfSel_lt ((List.range 6).map (fun j => m'.testBit j && decide (j ≠ t)))
    rw [List.length_map, List.length_range] at h1
    exact lt_of_lt_of_eq h1 (by norm_num)
  have hmnew_bit : ∀ j, j < 6 → mnew.testBit j = (m'.testBit j && decide (j ≠ t)) := by
    intro j hj
    rw [hmnew, testBit_maskOfSel]
    rw [List.getD_eq_getElem?_getD, List.getElem?_map, List.getElem?_range (by simpa using hj)]
    rfl
  have hkeynew : getKeyMasked mnew w = getKeyStr p := by
    rw [getKeyMasked, getKeyStr, hwlen]
    congr 1
    apply List.map_congr_left
    intro j hjr
    have hj : j < min p.length 6 := List.mem_range.mp hjr
    have hj6 : j < 6 := by omega
    have hjp : j < p.length := by omega
    rw [hmnew_bit j hj6]
    by_cases hjt : j = t
    · subst hjt
      rw [decide_eq_false (by simp), Bool.and_false]
      simp only [Bool.false_eq_true, if_false]
      rw [hpt]
      rfl
    · rw [decide_eq_true hjt, Bool.and_true]
      have hdigj := hdig j (by omega)
      have hqj : (p.set t c).getD j 0 = p.getD j 0 := by
        rw [List.getD_eq_getElem?_getD, List.getElem?_set,
          if_neg (fun hh => hjt hh.symm), ← List.getD_eq_getElem?_getD]
      rw [hqj] at hdigj
      exact hdigj
  apply (inv.fast _ _ id0).mpr
  exact ⟨i, hi, by rw [← hw, hwlen], hid, mnew, hmnew_lt, by rw [← hw, hkeynew]⟩

theorem claim_C3_witness :
    0 ∈ ((findPossible c1state [192, ANY_CHAR]).1.getD []) :=
  claim_C3 c1raws c1state rfl [192, ANY_CHAR] 1 193 (by norm_num)
    (by norm_num) (by norm_num [ANY_CHAR]) (by norm_num [CYRILLIC_A]) (by norm_num) 0
    (by decide)

/-- C4: a cache-miss query whose pattern length is at least `LONGEST_WORD`
reads `_fastSearch[pattern.size()]` out of bounds in the source (there is no
bounds check between the cache lookup and the array access); the model
returns `none` for exactly that access, uniformly for all such lengths.  The
two evaluations below exercise the boundary length and a longer one on a
freshly reset dictionary. -/
theorem claim_C4 :
    findPossible emptyState (List.replicate LONGEST_WORD ANY_CHAR) = (none, emptyState) ∧
    findPossible emptyState (List.replicate (LONGEST_WORD + 7) ANY_CHAR) = (none, emptyState) :=
  ⟨rfl, rfl⟩

/-- C10: the canonicalization pipeline of the source (`dosToWinCode`, then
`cleanString`, then `toupper`, in the order of
`toupper(cleanString(dosToWinCode(nextWord)))`) leaves a string unchanged
when every byte is already an uppercase alphabetic letter of the supported
range `[CYRILLIC_A - 32, CYRILLIC_A)`. -/
theorem claim_C10 (s : List Nat)
    (h : ∀ c ∈ s, CYRILLIC_A - 32 ≤ c ∧ c < CYRILLIC_A) :
    toupperStr (cleanString (dosToWinCode s)) = s :=
  cleanOf_upper_alpha s h

theorem claim_C10_witness :
    toupperStr (cleanString (dosToWinCode [192, 200, 223])) = [192, 200, 223] :=
  claim_C10 [192, 200, 223] (by decide)

/-- C6: the source `levenstein` fills its base row and base column with 0
(`if (std::min(i, j) == 0) dp[i][j] = 0`) instead of the index value the
classic algorithm requires, so it disagrees with the classic Levenshtein
distance (`levenshteinSpec`, transcribed from the spec): on the pair
("A", "") the source returns 0 while the edit distance is 1.  On the spec's
own example the two coincide: levenstein("KITTEN", "SITTING") = 3. -/
theorem claim_C6 :
    levenstein [65] [] = 0 ∧ levenshteinSpec [65] [] = 1 ∧
    levenstein [75, 73, 84, 84, 69, 78] [83, 73, 84, 84, 73, 78, 71] = 3 ∧
    levenshteinSpec [75, 73, 84, 84, 69, 78] [83, 73, 84, 84, 73, 78, 71] = 3 :=
  ⟨rfl, rfl, by decide, by decide⟩

/-- Source default paths (`dictionary.cpp` lines 7 and 8). -/
def DEFAULT_DICTIONARY_PATH : String := "z:/cross/bigdict.txt"

def DEFAULT_CONFIG_PATH : String := "z:/cross/config/config.ini"

/-- The one configuration key the constructor reads:
`dictionary.dictionary_file_path`, or `none` when `get` throws. -/
structure IniData where
  dictPath : Option String

/-- The file-system facts the constructor consults: whether
`boost::property_tree::ini_parser::read_ini` succeeds on a path (and with
what content), and whether `std::ifstream{path}` opens successfully. -/
structure ConfigEnv where
  readIni : String → Option IniData
  streamGood : String → Bool

/-- Source `Dictionary::Dictionary(const std::string& configFilePath)`, the
configuration-resolution part, returning the resolved `_dictionaryFilePath`
or `none` when the constructor throws.  Transcribed control flow: on a failed
`read_ini(configFilePath)` the `catch` block tests
`if (std::ifstream{ DEFAULT_CONFIG_PATH })` and, when that default stream
opens successfully, throws; otherwise it calls
`read_ini(configFilePath, ...)` again on the original path (not the default),
whose failure propagates out of the constructor. -/
def dictionaryCtorPath (env : ConfigEnv) (configFilePath : String) : Option String :=
  match env.readIni configFilePath with
  | some tree => some (tree.dictPath.getD DEFAULT_DICTIONARY_PATH)
  | none =>
    if env.streamGood DEFAULT_CONFIG_PATH then
      none
    else
      match env.readIni configFilePath with
      | some tree => some (tree.dictPath.getD DEFAULT_DICTIONARY_PATH)
      | none => none

/-- Environment in which the requested configuration path is unreadable while
the built-in default configuration path is perfectly usable. -/
def c5env : ConfigEnv :=
  { readIni := fun p => if p = DEFAULT_CONFIG_PATH then some ⟨some "dict.txt"⟩ else none
    streamGood := fun p => decide (p = DEFAULT_CONFIG_PATH) }

/-- C5: the constructor's fallback is inverted.  In `c5env` the default
configuration path is readable (second and third conjuncts), yet constructing
with an unreadable requested path throws (first conjunct, modelled as
`none`): the `catch` block throws precisely when `std::ifstream` on the
default path succeeds, and its fallback `read_ini` re-reads the original
failing path instead of the default, so the constructor never actually falls
back.  The last conjunct shows the same environment resolves fine when asked
to read the default path directly. -/
theorem claim_C5 :
    dictionaryCtorPath c5env "bogus.ini" = none ∧
    c5env.readIni DEFAULT_CONFIG_PATH = some ⟨some "dict.txt"⟩ ∧
    c5env.streamGood DEFAULT_CONFIG_PATH = true ∧
    dictionaryCtorPath c5env DEFAULT_CONFIG_PATH = some "dict.txt" :=
  ⟨rfl, rfl, rfl, rfl⟩

def c7raws : List (List Nat × List Nat) := [([192, 193], [1]), ([224, 193], [2])]

def c7state : DictState := (loadDictionary c7raws).getD emptyState

/-- C7 counterexample: loading a second raw entry whose canonical key
duplicates the first does leave a trace in the dictionary's state — the word
table grows from one entry to two (and, per the amended theorem, the
duplicate identifier is registered in the fast-search index as well), so the
duplicate is dropped only from the two string maps. -/
theorem claim_C7_cex :
    (loadDictionary c7raws).map (fun s => s.allWords.length) ≠
      (loadDictionary [([192, 193], [1])]).map (fun s => s.allWords.length) := by
  decide

/-- C7 (amended): when several raw entries normalize to the same canonical
key the first one wins for `getDirty` and `getExplanation` (the `emplace`
calls never overwrite), but the later duplicates do leave a trace: every
entry, duplicate or not, appends its canonical key to the word table and
registers its identifier in the fast-search index. -/
theorem claim_C7 (raws : List (List Nat × List Nat)) (s : DictState)
    (h : loadDictionary raws = some s) :
    (∀ c r, raws.find? (fun x => decide (cleanOf x.1 = c)) = some r →
      getDirty s c = dosToWinCode r.1 ∧ getExplanation s c = dosToWinCode r.2) ∧
    s.allWords = raws.map (fun r => cleanOf r.1) ∧
    (∀ i, ∀ hi : i < raws.length,
      i % 65536 ∈ s.fastSearch (cleanOf (raws.get ⟨i, hi⟩).1).length
        (getKeyStr (cleanOf (raws.get ⟨i, hi⟩).1))) := by
  have inv := loadDictionary_inv h
  refine ⟨?_, inv.words, ?_⟩
  · intro c r hfind
    constructor
    · rw [getDirty, inv.dirty c, hfind]
      rfl
    · rw [getExplanation, inv.expl c, hfind]
      rfl
  · intro i hi
    apply (inv.fast _ _ _).mpr
    exact ⟨i, hi, rfl, rfl, 63, by norm_num, getKeyMasked_full _⟩

theorem claim_C7_witness :
    (getDirty c7state [192, 193] = dosToWinCode [192, 193] ∧
     getExplanation c7state [192, 193] = dosToWinCode [1]) ∧
    c7state.allWords = c7raws.map (fun r => cleanOf r.1) ∧
    1 % 65536 ∈ c7state.fastSearch (cleanOf (c7raws.get ⟨1, by decide⟩).1).length
      (getKeyStr (cleanOf (c7raws.get ⟨1, by decide⟩).1)) :=
  ⟨(claim_C7 c7raws c7state rfl).1 [192, 193] ([192, 193], [1]) (by decide),
   (claim_C7 c7raws c7state rfl).2.1,
   (claim_C7 c7raws c7state rfl).2.2 1 (by decide)⟩

theorem findPossible_cache_hit (s : DictState) (p : List Nat) (l : List Nat)
    (hc : s.cacheSearchMap p = some l) : findPossible s p = (some l, s) := by
  simp [findPossible, hc]

theorem findPossible_oob (s : DictState) (p : List Nat)
    (hc : s.cacheSearchMap p = none) (hlen : ¬p.length < LONGEST_WORD) :
    findPossible s p = (none, s) := by
  simp [findPossible, hc, hlen]

theorem findPossible_isSome (s : DictState) (p : List Nat)
    (hc : s.cacheSearchMap p = none) (hlen : p.length < LONGEST_WORD) :
    ((findPossible s p).1).isSome = true := by
  by_cases h6 : p.length ≤ 6 <;> simp [findPossible, hc, hlen, h6]

theorem findPossible_cache_self (s : DictState) (p : List Nat)
    (hc : s.cacheSearchMap p = none) (hlen : p.length < LONGEST_WORD) :
    ((findPossible s p).2).cacheSearchMap p = (findPossible s p).1 := by
  by_cases h6 : p.length ≤ 6 <;> simp [findPossible, hc, hlen, h6]

/-- C8: querying the same pattern twice, with a `shuffle()` allowed in
between, returns the same identifiers as a set: the first query either hits
the cache or stores its computed answer there, the shuffle only permutes the
stored lists, and the second query is answered from the (permuted) cache
entry — or both queries fall into the out-of-bounds case and return no
list. -/
theorem claim_C8 (s : DictState) (p : List Nat) (t : DictState)
    (hsh : Shuffled ((findPossible s p).2) t) :
    (((findPossible s p).1 = none) ↔ ((findPossible t p).1 = none)) ∧
    (∀ id0, id0 ∈ ((findPossible s p).1.getD []) ↔
      id0 ∈ ((findPossible t p).1.getD [])) := by
  rcases hc : s.cacheSearchMap p with _ | cached
  · by_cases hlen : p.length < LONGEST_WORD
    · obtain ⟨l1, hl1⟩ := Option.isSome_iff_exists.mp (findPossible_isSome s p hc hlen)
      have hcache1 : ((findPossible s p).2).cacheSearchMap p = some l1 := by
        rw [findPossible_cache_self s p hc hlen, hl1]
      obtain ⟨l2, hl2, hperm⟩ := hsh.cacheSome p l1 hcache1
      have ht : findPossible t p = (some l2, t) := findPossible_cache_hit t p l2 hl2
      constructor
      · rw [hl1, ht]
        simp
      · intro id0
        rw [hl1, ht]
        simp only [Option.getD_some]
        exact hperm.mem_iff.symm
    · have h1 : findPossible s p = (none, s) := findPossible_oob s p hc hlen
      rw [h1] at hsh
      have ht : t.cacheSearchMap p = none := hsh.cacheNone p hc
      have h2 : findPossible t p = (none, t) := findPossible_oob t p ht hlen
      rw [h1, h2]
      exact ⟨by simp, fun id0 => by simp⟩
  · have h1 : findPossible s p = (some cached, s) := findPossible_cache_hit s p cached hc
    rw [h1] at hsh
    obtain ⟨l2, hl2, hperm⟩ := hsh.cacheSome p cached hc
    have h2 : findPossible t p = (some l2, t) := findPossible_cache_hit t p l2 hl2
    rw [h1, h2]
    refine ⟨by simp, fun id0 => ?_⟩
    simp only [Option.getD_some]
    exact hperm.mem_iff.symm

theorem shuffled_refl (s : DictState) : Shuffled s s :=
  ⟨rfl, rfl, rfl, fun _ _ _ => List.Perm.refl _, fun _ _ => rfl,
   fun _ h => h, fun _ l h => ⟨l, h, List.Perm.refl _⟩⟩

theorem claim_C8_witness :
    (((findPossible c1state [192, 193]).1 = none) ↔
      ((findPossible ((findPossible c1state [192, 193]).2) [192, 193]).1 = none)) ∧
    (0 ∈ ((findPossible c1state [192, 193]).1.getD []) ↔
      0 ∈ ((findPossible ((findPossible c1state [192, 193]).2) [192, 193]).1.getD [])) :=
  ⟨(claim_C8 c1state [192, 193] ((findPossible c1state [192, 193]).2)
      (shuffled_refl _)).1,
   (claim_C8 c1state [192, 193] ((findPossible c1state [192, 193]).2)
      (shuffled_refl _)).2 0⟩

end Dict

namespace Cross

/-- The inner scanning loop of `crossword::loadWords`
(`for (; j < M && !isBox(i, j); ++j);`): advances from `j` to the first
position that is a box, stopping at `M`.  The loop bound `j < M` is carried
by the fuel, which callers pass as `M - j`. -/
def runEnd (box : Nat → Bool) : Nat → Nat → Nat
  | 0, j => j
  | f + 1, j => if box j then j else runEnd box f (j + 1)

/-- One line (row or column) of `crossword::loadWords`: the outer loop over
`j`, restarted after each maximal run at the position one past the run's end
(the loop's `++j` after the inner scan).  Runs of length at most 1 are
discarded (`if (j - start <= 1) continue;`).  Returns the (start, end)
pairs of the retained runs.  The fuel is structural; `M + 1` steps always
suffice since the scan position strictly increases and the loop stops past
`M`. -/
def rowScan (box : Nat → Bool) (M : Nat) : Nat → Nat → List (Nat × Nat)
  | 0, _ => []
  | f + 1, j =>
    if j < M then
      let e := runEnd box (M - j) j
      (if e - j ≤ 1 then [] else [(j, e)]) ++ rowScan box M f (e + 1)
    else []

/-- Source `position` (declared in the missing `crossword.h`; its fields are
fully determined by the uses in `crossword.cpp`): the orientation flag
(`newPos.hor = 1` for a row run, `0` for a column run) and the cells, each a
reference to a board cell — modelled by its `(row, column)` coordinates —
paired with its row-major linear id `i * M + j`. -/
structure Position where
  hor : Nat
  letters : List ((Nat × Nat) × Nat)
deriving DecidableEq

/-- The horizontal slot pushed for a row run `[a, b)` of row `i`
(`newPos.letters.push_back({ &board[i][start], i*M + start })`). -/
def slotH (M i a b : Nat) : Position :=
  ⟨1, (List.range' a (b - a)).map (fun c => ((i, c), i * M + c))⟩

/-- The vertical slot pushed for a column run `[a, b)` of column `j`. -/
def slotV (M j a b : Nat) : Position :=
  ⟨0, (List.range' a (b - a)).map (fun r => ((r, j), r * M + j))⟩

/-- Source `crossword::loadWords`: scan every row left to right, then every
column top to bottom, keeping the maximal runs of non-box cells of length at
least 2.  The final `sort(areas.begin(), areas.end(), position::sortHelp)` is
omitted: the comparator lives in the missing `crossword.h` (the spec leaves
the ordering an open question), and sorting permutes `areas`, so the
membership and multiplicity statements proved below are unaffected by it. -/
def loadWords (N M : Nat) (isBox : Nat → Nat → Bool) : List Position :=
  ((List.range N).flatMap fun i =>
    (rowScan (fun j => isBox i j) M (M + 1) 0).map (fun se => slotH M i se.1 se.2)) ++
  ((List.range M).flatMap fun j =>
    (rowScan (fun i => isBox i j) N (N + 1) 0).map (fun se => slotV M j se.1 se.2))

/-- A maximal run of at least two consecutive open (non-box) cells `[a, b)`
on a line of length `M`: nonempty, within bounds, of length at least 2, all
open, and not extendable on either side. -/
def MaxRun (box : Nat → Bool) (M a b : Nat) : Prop :=
  a < b ∧ b ≤ M ∧ 2 ≤ b - a ∧ (∀ k, k < b → a ≤ k → box k = false) ∧
  (a = 0 ∨ box (a - 1) = true) ∧ (b = M ∨ box b = true)

instance MaxRun.decidable (box : Nat → Bool) (M a b : Nat) :
    Decidable (MaxRun box M a b) := by
  unfold MaxRun
  infer_instance

/-- A maximal horizontal run on the grid, in row `i`. -/
def IsMaxRunH (N M : Nat) (isBox : Nat → Nat → Bool) (i a b : Nat) : Prop :=
  i < N ∧ MaxRun (fun j => isBox i j) M a b

/-- A maximal vertical run on the grid, in column `j`. -/
def IsMaxRunV (N M : Nat) (isBox : Nat → Nat → Bool) (j a b : Nat) : Prop :=
  j < M ∧ MaxRun (fun i => isBox i j) N a b

theorem runEnd_spec (box : Nat → Bool) : ∀ (f j : Nat),
    j ≤ runEnd box f j ∧ runEnd box f j ≤ j + f ∧
    (∀ k, j ≤ k → k < runEnd box f j → box k = false) ∧
    (runEnd box f j = j + f ∨ box (runEnd box f j) = true) := by
  intro f
  induction f with
  | zero =>
    intro j
    have h0 : runEnd box 0 j = j := rfl
    refine ⟨by omega, by omega, ?_, Or.inl (by omega)⟩
    intro k hk1 hk2
    exact absurd hk2 (by omega)
  | succ f ih =>
    intro j
    rw [runEnd]
    by_cases hb : box j
    · rw [if_pos hb]
      exact ⟨le_refl j, by omega, fun k hk1 hk2 => by omega, Or.inr hb⟩
    · rw [if_neg hb]
      obtain ⟨ih1, ih2, ih3, ih4⟩ := ih (j + 1)
      refine ⟨by omega, by omega, ?_, ?_⟩
      · intro k hk1 hk2
        rcases Nat.eq_or_lt_of_le hk1 with hk | hk
        · rw [← hk]
          revert hb
          cases box j <;> simp
        · exact ih3 k (by omega) hk2
      · rcases ih4 with h4 | h4
        · exact Or.inl (by omega)
        · exact Or.inr h4

theorem rowScan_count (box : Nat → Bool) (M : Nat) : ∀ (fuel j0 : Nat),
    M + 1 ≤ fuel + j0 →
    (j0 = 0 ∨ M < j0 ∨ box (j0 - 1) = true) →
    ∀ a b, (rowScan box M fuel j0).count (a, b) =
      if j0 ≤ a ∧ MaxRun box M a b then 1 else 0 := by
  intro fuel
  induction fuel with
  | zero =>
    intro j0 hf _ a b
    rw [rowScan, List.count_nil]
    rcases Classical.em (j0 ≤ a ∧ MaxRun box M a b) with hcond | hcond
    · exfalso
      obtain ⟨hja, hab, hbM, _⟩ := hcond
      omega
    · rw [if_neg hcond]
  | succ f ih =>
    intro j0 hf hP a b
    by_cases hjM : j0 < M
    · rw [rowScan, if_pos hjM]
      obtain ⟨he1, he2, he3, he4⟩ := runEnd_spec box (M - j0) j0
      set e := runEnd box (M - j0) j0 with he
      have he2' : e ≤ M := by omega
      have he4' : e = M ∨ box e = true := by
        rcases he4 with h | h
        · exact Or.inl (by omega)
        · exact Or.inr h
      have hrun_eq : ∀ b2, MaxRun box M j0 b2 → b2 = e := by
        intro b2 hmr
        obtain ⟨hab, hbM, h2, hopen, _, hright⟩ := hmr
        rcases Nat.lt_trichotomy e b2 with hlt | heq | hgt
        · exfalso
          have hoe := hopen e hlt he1
          rcases he4' with hM | hbox
          · omega
          · rw [hoe] at hbox
            exact Bool.noConfusion hbox
        · exact heq.symm
        · exfalso
          have hob := he3 b2 (by omega) hgt
          rcases hright with hM | hbox
          · omega
          · rw [hob] at hbox
            exact Bool.noConfusion hbox
      have hstep : ∀ a2 b2, MaxRun box M a2 b2 → j0 < a2 → e + 1 ≤ a2 := by
        intro a2 b2 hmr hja
        obtain ⟨hab, hbM, h2, hopen, hleft, _⟩ := hmr
        rcases hleft with h0 | hbox
        · omega
        · by_contra hcon
          have hlt : a2 - 1 < e := by omega
          have := he3 (a2 - 1) (by omega) hlt
          rw [this] at hbox
          exact Bool.noConfusion hbox
      have hP' : e + 1 = 0 ∨ M < e + 1 ∨ box (e + 1 - 1) = true := by
        rcases he4' with hM | hbox
        · exact Or.inr (Or.inl (by omega))
        · exact Or.inr (Or.inr (by simpa using hbox))
      have ihe := ih (e + 1) (by omega) hP' a b
      rw [List.count_append, ihe]
      by_cases hemit : e - j0 ≤ 1
      · rw [if_pos hemit]
        rw [List.count_nil, Nat.zero_add]
        rcases Classical.em (MaxRun box M a b) with hmr | hmr
        · rcases Classical.em (j0 ≤ a) with hja | hja
          · have ha2 : e + 1 ≤ a := by
              rcases Nat.eq_or_lt_of_le hja with hje | hje
              · exfalso
                have := hrun_eq b (hje ▸ hmr)
                have h2 := hmr.2.2.1
                omega
              · exact hstep a b hmr hje
            rw [if_pos ⟨ha2, hmr⟩, if_pos ⟨hja, hmr⟩]
          · rw [if_neg (fun hh => hja (le_trans (le_trans he1 (Nat.le_succ e)) hh.1)),
              if_neg (fun hh => hja hh.1)]
        · rw [if_neg (fun hh => hmr hh.2), if_neg (fun hh => hmr hh.2)]
      · rw [if_neg hemit]
        have hMaxHead : MaxRun box M j0 e := by
          refine ⟨by omega, he2', by omega, fun k hk1 hk2 => he3 k hk2 hk1, ?_, he4'⟩
          rcases hP with h0 | hM | hbox
          · exact Or.inl h0
          · exact absurd hjM (by omega)
          · exact Or.inr hbox
        by_cases heq : ((j0, e) : Nat × Nat) = (a, b)
        · have hja : j0 = a := congrArg Prod.fst heq
          have hbe : e = b := congrArg Prod.snd heq
          subst hja
          subst hbe
          rw [if_neg (show ¬(e + 1 ≤ j0 ∧ MaxRun box M j0 e) by omega)]
          rw [if_pos ⟨le_refl j0, hMaxHead⟩]
          rw [List.count_cons, List.count_nil]
          simp
        · have hcnt0 : List.count ((a, b) : Nat × Nat) [(j0, e)] = 0 := by
            rw [List.count_cons, List.count_nil]
            have hbeq : (((j0, e) : Nat × Nat) == (a, b)) = false :=
              beq_eq_false_iff_ne.mpr heq
            rw [hbeq]
            rfl
          rw [hcnt0, Nat.zero_add]
          rcases Classical.em (MaxRun box M a b) with hmr | hmr
          · rcases Classical.em (j0 ≤ a) with hja | hja
            · have ha2 : e + 1 ≤ a := by
                rcases Nat.eq_or_lt_of_le hja with hje | hje
                · exfalso
                  have hbe := hrun_eq b (hje ▸ hmr)
                  exact heq (by rw [← hje, hbe])
                · exact hstep a b hmr hje
              rw [if_pos ⟨ha2, hmr⟩, if_pos ⟨hja, hmr⟩]
            · rw [if_neg (fun hh => hja (le_trans (le_trans he1 (Nat.le_succ e)) hh.1)),
                if_neg (fun hh => hja hh.1)]
          · rw [if_neg (fun hh => hmr hh.2), if_neg (fun hh => hmr hh.2)]
    · rw [rowScan, if_neg hjM]
      rw [List.count_nil]
      rcases Classical.em (j0 ≤ a ∧ MaxRun box M a b) with hcond | hcond
      · exfalso
        obtain ⟨hja, hab, hbM, _⟩ := hcond
        omega
      · rw [if_neg hcond]

theorem rowScan_mem (box : Nat → Bool) (M a b : Nat) :
    ((a, b) ∈ rowScan box M (M + 1) 0) ↔ MaxRun box M a b := by
  rw [← List.count_pos_iff,
    rowScan_count box M (M + 1) 0 (by omega) (Or.inl rfl) a b]
  constructor
  · intro h
    rcases Classical.em (0 ≤ a ∧ MaxRun box M a b) with hc | hc
    · exact hc.2
    · rw [if_neg hc] at h
      exact absurd h (lt_irrefl 0)
  · intro hmr
    rw [if_pos ⟨Nat.zero_le a, hmr⟩]
    omega

theorem slotH_ne_slotV (M1 M2 i j a1 b1 a2 b2 : Nat) :
    slotH M1 i a1 b1 ≠ slotV M2 j a2 b2 := by
  intro h
  have := congrArg Position.hor h
  simp [slotH, slotV] at this

theorem slotH_eq_iff {M i1 a1 b1 i2 a2 b2 : Nat} (h1 : a1 < b1) (h2 : a2 < b2) :
    slotH M i1 a1 b1 = slotH M i2 a2 b2 ↔ (i1 = i2 ∧ a1 = a2 ∧ b1 = b2) := by
  constructor
  · intro h
    have hlet := congrArg Position.letters h
    simp only [slotH] at hlet
    have hlen := congrArg List.length hlet
    simp only [List.length_map, List.length_range'] at hlen
    obtain ⟨n1, hn1⟩ : ∃ n1, b1 - a1 = n1 + 1 := ⟨b1 - a1 - 1, by omega⟩
    obtain ⟨n2, hn2⟩ : ∃ n2, b2 - a2 = n2 + 1 := ⟨b2 - a2 - 1, by omega⟩
    rw [hn1, hn2, List.range'_succ, List.range'_succ] at hlet
    simp only [List.map_cons, List.cons.injEq, Prod.mk.injEq] at hlet
    have hii : i1 = i2 := hlet.1.1.1
    have haa : a1 = a2 := hlet.1.1.2
    exact ⟨hii, haa, by omega⟩
  · rintro ⟨rfl, rfl, rfl⟩
    rfl

theorem slotV_eq_iff {M j1 a1 b1 j2 a2 b2 : Nat} (h1 : a1 < b1) (h2 : a2 < b2) :
    slotV M j1 a1 b1 = slotV M j2 a2 b2 ↔ (j1 = j2 ∧ a1 = a2 ∧ b1 = b2) := by
  constructor
  · intro h
    have hlet := congrArg Position.letters h
    simp only [slotV] at hlet
    have hlen := congrArg List.length hlet
    simp only [List.length_map, List.length_range'] at hlen
    obtain ⟨n1, hn1⟩ : ∃ n1, b1 - a1 = n1 + 1 := ⟨b1 - a1 - 1, by omega⟩
    obtain ⟨n2, hn2⟩ : ∃ n2, b2 - a2 = n2 + 1 := ⟨b2 - a2 - 1, by omega⟩
    rw [hn1, hn2, List.range'_succ, List.range'_succ] at hlet
    simp only [List.map_cons, List.cons.injEq, Prod.mk.injEq] at hlet
    have haa : a1 = a2 := hlet.1.1.1
    have hjj : j1 = j2 := hlet.1.1.2
    exact ⟨hjj, haa, by omega⟩
  · rintro ⟨rfl, rfl, rfl⟩
    rfl

theorem count_flatMap {α β : Type} [BEq β] (l : List α) (f : α → List β) (y : β) :
    (l.flatMap f).count y = (l.map (fun x => (f x).count y)).sum := by
  induction l with
  | nil => rfl
  | cons x xs ih =>
    rw [List.flatMap_cons, List.count_append, ih, List.map_cons, List.sum_cons]

theorem count_map_eq_countP {α β : Type} [BEq β] [LawfulBEq β] (g : α → β) (l : List α) (y : β) :
    (l.map g).count y = l.countP (fun x => g x == y) := by
  induction l with
  | nil => rfl
  | cons x xs ih =>
    rw [List.map_cons, List.count_cons, List.countP_cons, ih]

theorem countP_eq_count {α : Type} [BEq α] (l : List α) (y : α) :
    l.countP (fun x => x == y) = l.count y := rfl

theorem sum_ite_range (N i : Nat) (hi : i < N) :
    ((List.range N).map (fun j => if j = i then 1 else 0)).sum = 1 := by
  induction N with
  | zero => omega
  | succ n ih =>
    rw [List.range_succ, List.map_append, List.sum_append]
    rcases Nat.lt_or_ge i n with h | h
    · rw [ih h]
      simp only [List.map_cons, List.map_nil, List.sum_cons, List.sum_nil]
      rw [if_neg (by omega)]
      omega
    · have hin : i = n := by omega
      subst hin
      have hzero : ((List.range i).map (fun j => if j = i then 1 else 0)).sum = 0 := by
        apply List.sum_eq_zero
        intro x hx
        obtain ⟨j, hj, rfl⟩ := List.mem_map.mp hx
        rw [if_neg (Nat.ne_of_lt (List.mem_range.mp hj))]
      rw [hzero]
      simp

theorem loadWords_count_H (N M : Nat) (isBox : Nat → Nat → Bool) {i a b : Nat}
    (h : IsMaxRunH N M isBox i a b) :
    (loadWords N M isBox).count (slotH M i a b) = 1 := by
  obtain ⟨hiN, hmr⟩ := h
  have hab : a < b := hmr.1
  rw [loadWords, List.count_append]
  have hv : (((List.range M).flatMap fun j =>
      (rowScan (fun r => isBox r j) N (N + 1) 0).map
        (fun se => slotV M j se.1 se.2)).count (slotH M i a b)) = 0 := by
    rw [List.count_eq_zero]
    intro hmem
    obtain ⟨j, _, hmem2⟩ := List.mem_flatMap.mp hmem
    obtain ⟨se, _, heq⟩ := List.mem_map.mp hmem2
    exact slotH_ne_slotV M M i j a b se.1 se.2 heq.symm
  rw [hv, Nat.add_zero, count_flatMap]
  have hmapeq : (List.range N).map
      (fun i2 => ((rowScan (fun j => isBox i2 j) M (M + 1) 0).map
        (fun se => slotH M i2 se.1 se.2)).count (slotH M i a b)) =
      (List.range N).map (fun i2 => if i2 = i then 1 else 0) := by
    apply List.map_congr_left
    intro i2 _
    by_cases hii : i2 = i
    · subst hii
      rw [if_pos rfl, count_map_eq_countP]
      have hcongr : List.countP (fun se => slotH M i2 se.1 se.2 == slotH M i2 a b)
          (rowScan (fun j => isBox i2 j) M (M + 1) 0) =
          List.countP (fun se => se == ((a, b) : Nat × Nat))
          (rowScan (fun j => isBox i2 j) M (M + 1) 0) := by
        apply List.countP_congr
        intro se hse
        obtain ⟨sa, sb⟩ := se
        have hmr2 : MaxRun (fun j => isBox i2 j) M sa sb :=
          (rowScan_mem (fun j => isBox i2 j) M sa sb).mp hse
        simp only [beq_iff_eq]
        rw [slotH_eq_iff hmr2.1 hab]
        constructor
        · rintro ⟨_, rfl, rfl⟩
          rfl
        · intro hh
          have h1 : sa = a := congrArg Prod.fst hh
          have h2 : sb = b := congrArg Prod.snd hh
          exact ⟨rfl, h1, h2⟩
      rw [hcongr, countP_eq_count,
        rowScan_count (fun j => isBox i2 j) M (M + 1) 0 (by omega) (Or.inl rfl) a b,
        if_pos ⟨Nat.zero_le a, hmr⟩]
    · rw [if_neg hii, List.count_eq_zero]
      intro hmem
      obtain ⟨se, hse, heq⟩ := List.mem_map.mp hmem
      obtain ⟨sa, sb⟩ := se
      have hmr2 : MaxRun (fun j => isBox i2 j) M sa sb :=
        (rowScan_mem (fun j => isBox i2 j) M sa sb).mp hse
      exact hii ((slotH_eq_iff hmr2.1 hab).mp heq).1
  rw [hmapeq, sum_ite_range N i hiN]

theorem loadWords_count_V (N M : Nat) (isBox : Nat → Nat → Bool) {j a b : Nat}
    (h : IsMaxRunV N M isBox j a b) :
    (loadWords N M isBox).count (slotV M j a b) = 1 := by
  obtain ⟨hjM, hmr⟩ := h
  have hab : a < b := hmr.1
  rw [loadWords, List.count_append]
  have hh : (((List.range N).flatMap fun i =>
      (rowScan (fun c => isBox i c) M (M + 1) 0).map
        (fun se => slotH M i se.1 se.2)).count (slotV M j a b)) = 0 := by
    rw [List.count_eq_zero]
    intro hmem
    obtain ⟨i, _, hmem2⟩ := List.mem_flatMap.mp hmem
    obtain ⟨se, _, heq⟩ := List.mem_map.mp hmem2
    exact slotH_ne_slotV M M i j se.1 se.2 a b heq
  rw [hh, Nat.zero_add, count_flatMap]
  have hmapeq : (List.range M).map
      (fun j2 => ((rowScan (fun r => isBox r j2) N (N + 1) 0).map
        (fun se => slotV M j2 se.1 se.2)).count (slotV M j a b)) =
      (List.range M).map (fun j2 => if j2 = j then 1 else 0) := by
    apply List.map_congr_left
    intro j2 _
    by_cases hjj : j2 = j
    · subst hjj
      rw [if_pos rfl, count_map_eq_countP]
      have hcongr : List.countP (fun se => slotV M j2 se.1 se.2 == slotV M j2 a b)
          (rowScan (fun r => isBox r j2) N (N + 1) 0) =
          List.countP (fun se => se == ((a, b) : Nat × Nat))
          (rowScan (fun r => isBox r j2) N (N + 1) 0) := by
        apply List.countP_congr
        intro se hse
        obtain ⟨sa, sb⟩ := se
        have hmr2 : MaxRun (fun r => isBox r j2) N sa sb :=
          (rowScan_mem (fun r => isBox r j2) N sa sb).mp hse
        simp only [beq_iff_eq]
        rw [slotV_eq_iff hmr2.1 hab]
        constructor
        · rintro ⟨_, rfl, rfl⟩
          rfl
        · intro hh2
          have h1 : sa = a := congrArg Prod.fst hh2
          have h2 : sb = b := congrArg Prod.snd hh2
          exact ⟨rfl, h1, h2⟩
      rw [hcongr, countP_eq_count,
        rowScan_count (fun r => isBox r j2) N (N + 1) 0 (by omega) (Or.inl rfl) a b,
        if_pos ⟨Nat.zero_le a, hmr⟩]
    · rw [if_neg hjj, List.count_eq_zero]
      intro hmem
      obtain ⟨se, hse, heq⟩ := List.mem_map.mp hmem
      obtain ⟨sa, sb⟩ := se
      have hmr2 : MaxRun (fun r => isBox r j2) N sa sb :=
        (rowScan_mem (fun r => isBox r j2) N sa sb).mp hse
      exact hjj ((slotV_eq_iff hmr2.1 hab).mp heq).1
  rw [hmapeq, sum_ite_range M j hjM]

theorem loadWords_mem (N M : Nat) (isBox : Nat → Nat → Bool) (s : Position) :
    s ∈ loadWords N M isBox ↔
      (∃ i a b, IsMaxRunH N M isBox i a b ∧ s = slotH M i a b) ∨
      (∃ j a b, IsMaxRunV N M isBox j a b ∧ s = slotV M j a b) := by
  rw [loadWords, List.mem_append]
  apply or_congr
  · simp only [List.mem_flatMap, List.mem_map, List.mem_range]
    constructor
    · rintro ⟨i, hiN, se, hse, rfl⟩
      obtain ⟨sa, sb⟩ := se
      exact ⟨i, sa, sb,
        ⟨hiN, (rowScan_mem (fun j => isBox i j) M sa sb).mp hse⟩, rfl⟩
    · rintro ⟨i, a, b, ⟨hiN, hmr⟩, rfl⟩
      exact ⟨i, hiN, (a, b), (rowScan_mem (fun j => isBox i j) M a b).mpr hmr, rfl⟩
  · simp only [List.mem_flatMap, List.mem_map, List.mem_range]
    constructor
    · rintro ⟨j, hjM, se, hse, rfl⟩
      obtain ⟨sa, sb⟩ := se
      exact ⟨j, sa, sb,
        ⟨hjM, (rowScan_mem (fun r => isBox r j) N sa sb).mp hse⟩, rfl⟩
    · rintro ⟨j, a, b, ⟨hjM, hmr⟩, rfl⟩
      exact ⟨j, hjM, (a, b), (rowScan_mem (fun r => isBox r j) N a b).mpr hmr, rfl⟩

theorem runEnd_false : ∀ (f j : Nat), runEnd (fun _ => false) f j = j + f := by
  intro f
  induction f with
  | zero => intro j; rfl
  | succ f ih =>
    intro j
    rw [runEnd, if_neg (by simp)]
    rw [ih (j + 1)]
    omega

theorem rowScan_open (n : Nat) (hn : 2 ≤ n) :
    rowScan (fun _ => false) n (n + 1) 0 = [(0, n)] := by
  obtain ⟨k, rfl⟩ : ∃ k, n = k + 2 := ⟨n - 2, by omega⟩
  have htail : rowScan (fun _ => false) (k + 2) (k + 2) (k + 3) = [] := by
    rw [show k + 2 = (k + 1) + 1 from rfl, rowScan, if_neg (by omega)]
  rw [show k + 2 + 1 = (k + 2) + 1 from rfl, rowScan]
  rw [if_pos (by omega : 0 < k + 2)]
  simp only [Nat.sub_zero, runEnd_false, Nat.zero_add]
  rw [if_neg (by omega : ¬(k + 2 ≤ 1))]
  rw [show k + 2 + 1 = k + 3 from rfl, htail]
  simp

instance IsMaxRunH.decidable (N M : Nat) (isBox : Nat → Nat → Bool) (i a b : Nat) :
    Decidable (IsMaxRunH N M isBox i a b) := by
  unfold IsMaxRunH
  infer_instance

instance IsMaxRunV.decidable (N M : Nat) (isBox : Nat → Nat → Bool) (j a b : Nat) :
    Decidable (IsMaxRunV N M isBox j a b) := by
  unfold IsMaxRunV
  infer_instance

/-- C9: slot extraction.  Every maximal run of at least 2 consecutive open
cells in a row or column of the grid becomes exactly one slot (multiplicity
one in `areas`), every produced slot arises from such a run (so a maximal run
of exactly one open cell never forms a slot), a 1-by-1 open grid yields zero
slots, and a 1-by-n fully open grid (n at least 2) yields exactly the one
horizontal slot of length n and no vertical slot. -/
theorem claim_C9 :
    (∀ N M isBox i a b, IsMaxRunH N M isBox i a b →
      (loadWords N M isBox).count (slotH M i a b) = 1) ∧
    (∀ N M isBox j a b, IsMaxRunV N M isBox j a b →
      (loadWords N M isBox).count (slotV M j a b) = 1) ∧
    (∀ N M isBox s, s ∈ loadWords N M isBox →
      (∃ i a b, IsMaxRunH N M isBox i a b ∧ s = slotH M i a b) ∨
      (∃ j a b, IsMaxRunV N M isBox j a b ∧ s = slotV M j a b)) ∧
    loadWords 1 1 (fun _ _ => false) = [] ∧
    (∀ n, 2 ≤ n → loadWords 1 n (fun _ _ => false) = [slotH n 0 0 n]) := by
  refine ⟨fun N M isBox i a b h => loadWords_count_H N M isBox h,
    fun N M isBox j a b h => loadWords_count_V N M isBox h,
    fun N M isBox s h => (loadWords_mem N M isBox s).mp h,
    by decide, ?_⟩
  intro n hn
  rw [loadWords]
  have hrows : ((List.range 1).flatMap fun i =>
      (rowScan (fun j => (fun _ _ => false : Nat → Nat → Bool) i j) n (n + 1) 0).map
        (fun se => slotH n i se.1 se.2)) = [slotH n 0 0 n] := by
    rw [show List.range 1 = [0] from rfl, List.flatMap_cons, List.flatMap_nil,
      List.append_nil]
    rw [show (fun j => (fun _ _ => false : Nat → Nat → Bool) 0 j) = (fun _ => false : Nat → Bool)
      from rfl]
    rw [rowScan_open n hn]
    rfl
  have hcols : ((List.range n).flatMap fun j =>
      (rowScan (fun i => (fun _ _ => false : Nat → Nat → Bool) i j) 1 (1 + 1) 0).map
        (fun se => slotV n j se.1 se.2)) = [] := by
    rw [List.flatMap_eq_nil_iff]
    intro j _
    rw [show rowScan (fun i => (fun _ _ => false : Nat → Nat → Bool) i j) 1 (1 + 1) 0 = []
      from rfl]
    rfl
  rw [hrows, hcols, List.append_nil]

theorem claim_C9_witness :
    (loadWords 1 2 (fun _ _ => false)).count (slotH 2 0 0 2) = 1 ∧
    loadWords 1 2 (fun _ _ => false) = [slotH 2 0 0 2] :=
  ⟨claim_C9.1 1 2 (fun _ _ => false) 0 0 2 (by decide),
   claim_C9.2.2.2.2 2 (by norm_num)⟩

end Cross
